import Mathlib

/-!
Verification of the edgecatcher arbitrage core against its specification.

The development shallowly embeds the two core modules:
* `src/backend/arb_scanner.py` — margin/stake calculator, scan filter,
  opportunity lifecycle tracker (`scan_arbs`, `run_arb_scan`);
* `src/backend/arb_executor.py` — the seven-phase execution saga
  (`execute_arb`, `_execute_arb_inner`), modelled as a pure function from an
  environment of venue responses to a trace of events (venue calls, operator
  notifications, execution-log rows).

Machine floats are idealised as rationals; the Python builtins `round`
(round half to even) and `int` (truncation toward zero) are modelled
exactly on ℚ.  Free-text fields (sport, event and runner names) carry no
control flow and are omitted.  Module-level configuration read from
environment variables is passed as explicit parameters, with the source
defaults as Lean default field values.
-/

/-- Python `int(x)` on a float: truncation toward zero. -/
def pyInt (q : ℚ) : ℤ := if 0 ≤ q then ⌊q⌋ else ⌈q⌉

/-- Round a rational to the nearest integer, ties to even, matching the
Python builtin `round` on exact values. -/
def halfEvenRound (x : ℚ) : ℤ :=
  let f : ℤ := ⌊x⌋
  let r : ℚ := x - f
  if r < 1/2 then f
  else if 1/2 < r then f + 1
  else if f % 2 = 0 then f else f + 1

/-- Python `round(x, 3)`. -/
def pyRound3 (x : ℚ) : ℚ := (halfEvenRound (x * 1000) : ℚ) / 1000

/-- Python `round(x, 2)`. -/
def pyRound2 (x : ℚ) : ℚ := (halfEvenRound (x * 100) : ℚ) / 100

/-!
## Margin and stake calculator

Functions `arb_scanner.calc_margin` and `calc_lay_stake` (lines 117 to 124)
and their verbatim executor copies (lines 103 to 110 of
`arb_executor.py`).  `BETFAIR_COMMISSION` (env `ARB_COMMISSION`, default
0.02) is passed as the explicit first argument.
-/

/-- Scanner `calc_margin(p_b, p_l)`:
`((1 - BETFAIR_COMMISSION) * (p_b - 1) - (p_l - 1)) / p_b`. -/
def calc_margin (commission p_b p_l : ℚ) : ℚ :=
  ((1 - commission) * (p_b - 1) - (p_l - 1)) / p_b

/-- Scanner `calc_lay_stake(back_stake, p_b, p_l)`:
`back_stake * p_b / (p_l - BETFAIR_COMMISSION * (p_l - 1))`. -/
def calc_lay_stake (commission back_stake p_b p_l : ℚ) : ℚ :=
  back_stake * p_b / (p_l - commission * (p_l - 1))

/-- Executor copy of `calc_margin` (identical text in the source). -/
def exec_calc_margin (commission p_b p_l : ℚ) : ℚ :=
  ((1 - commission) * (p_b - 1) - (p_l - 1)) / p_b

/-- Executor copy of `calc_lay_stake` (identical text in the source). -/
def exec_calc_lay_stake (commission back_stake p_b p_l : ℚ) : ℚ :=
  back_stake * p_b / (p_l - commission * (p_l - 1))

/-- Net profit of the two-leg position when the back leg wins: the back bet
pays `back_stake * (p_b - 1)` and the lay bet loses its liability
`lay_stake * (p_l - 1)`.  No commission is due (the lay side lost). -/
def profitBackWins (back_stake p_b p_l lay_stake : ℚ) : ℚ :=
  back_stake * (p_b - 1) - lay_stake * (p_l - 1)

/-- Net profit when the back leg loses, charging commission on the net lay
win (the matched lay stake): the lay side keeps `lay_stake` less
commission, and the back stake is lost. -/
def profitBackLosesNetWin (commission back_stake lay_stake : ℚ) : ℚ :=
  lay_stake * (1 - commission) - back_stake

/-- Net profit when the back leg loses, charging commission on the lay
liability `lay_stake * (p_l - 1)` instead of on the net win — the
commission base that the hedge formula in the code actually equalises
against. -/
def profitBackLosesLiability (commission back_stake p_l lay_stake : ℚ) : ℚ :=
  (lay_stake - commission * lay_stake * (p_l - 1)) - back_stake

/-!
## Scan filter — `arb_scanner.scan_arbs`, lines 127 to 181

A feed row is one record of the `market_feed` query result (the query
itself excludes rows with `market_status = CLOSED` and SQL-null prices; a
query exception is modelled at the tracker level below).  The column
`last_updated` is an ISO timestamp string, modelled as absent, malformed
(the `fromisoformat` parse raising an error), or a parsed instant in
seconds.
-/

/-- Column `last_updated` of a feed row. -/
inductive TimeStamp where
  | missing : TimeStamp
  | malformed : TimeStamp
  | stamp (t : ℚ) : TimeStamp
deriving DecidableEq

/-- One row of the feed query result. -/
structure Row where
  id : ℕ
  price_pinnacle : Option ℚ
  lay_price : Option ℚ
  back_price : Option ℚ
  volume : Option ℤ
  last_updated : TimeStamp
deriving DecidableEq

/-- One entry of the list `scan_arbs` returns (string fields omitted). -/
structure Arb where
  id : ℕ
  pin_back : ℚ
  bf_lay : ℚ
  bf_back : ℚ
  margin_pct : ℚ
  profit_per_100 : ℚ
  volume : ℤ
deriving DecidableEq

/-- Scanner configuration: the env-derived module constants of
`arb_scanner.py` with their defaults. -/
structure ScanCfg where
  commission : ℚ := 1/50
  minMargin : ℚ := 1/1000
  maxMargin : ℚ := 1/20
  maxAge : ℚ := 60
  alertMargin : ℚ := 1/200
  minVolume : ℤ := 100
deriving DecidableEq

/-- Loop body of `scan_arbs` for one row (lines 143 to 179): price floor
check, staleness check, margin band check; `none` models `continue`. -/
def rowArb (cfg : ScanCfg) (now : ℚ) (r : Row) : Option Arb :=
  let p_b := r.price_pinnacle.getD 0
  let p_l := r.lay_price.getD 0
  if p_b ≤ 101/100 ∨ p_l ≤ 101/100 then none
  else
    match r.last_updated with
    | .missing => none
    | .malformed => none
    | .stamp t =>
      if now - t > cfg.maxAge then none
      else
        let margin := calc_margin cfg.commission p_b p_l
        if cfg.minMargin ≤ margin ∧ margin ≤ cfg.maxMargin then
          some { id := r.id, pin_back := p_b, bf_lay := p_l,
                 bf_back := r.back_price.getD 0,
                 margin_pct := pyRound3 (margin * 100),
                 profit_per_100 := pyRound2 (margin * 100),
                 volume := r.volume.getD 0 }
        else none

/-- Descending order on `margin_pct`, the sort key
`sorted(arbs, key=lambda x: -margin_pct)` uses. -/
def arbGE (a b : Arb) : Prop := b.margin_pct ≤ a.margin_pct

instance : DecidableRel arbGE := fun a b => inferInstanceAs (Decidable (_ ≤ _))

instance : IsTotal Arb arbGE := ⟨fun a b => le_total b.margin_pct a.margin_pct⟩

instance : IsTrans Arb arbGE := ⟨fun _ _ _ h1 h2 => le_trans h2 h1⟩

/-- Function `scan_arbs` on the feed rows the query returned: filter each
row, then sort descending by `margin_pct`. -/
def scanArbs (cfg : ScanCfg) (now : ℚ) (rows : List Row) : List Arb :=
  List.insertionSort arbGE (rows.filterMap (rowArb cfg now))

/-!
## Opportunity lifecycle tracker — `arb_scanner.run_arb_scan`, lines 184 to 243

The dict `_open_arbs` maps `market_feed_id` to first-seen time, peak
margin and a data snapshot; it is insertion-ordered and modelled as an
association list (the snapshot never influences later control flow and is
omitted).  SQLite writes (`_log_arb_open`, `_log_arb_update`,
`_log_arb_close`) and the Telegram alert are recorded as `DbOp` values in
emission order.
-/

/-- One `_open_arbs` entry. -/
structure OpenInfo where
  first_seen : ℚ
  peak_margin : ℚ
deriving DecidableEq

/-- In-memory dict of the tracker, insertion-ordered. -/
abbrev TrackState := List (ℕ × OpenInfo)

/-- Persistent-log writes and the alert emitted by one poll cycle. -/
inductive DbOp where
  | opened (id : ℕ) (t : ℚ) (margin_pct : ℚ)
  | update (id : ℕ) (last_seen : ℚ) (peak : ℚ)
  | close (id : ℕ) (gone_at : ℚ) (duration : ℤ) (peak : ℚ)
  | alert (id : ℕ)
deriving DecidableEq

/-- Dict lookup. -/
def lookupA (st : TrackState) (k : ℕ) : Option OpenInfo :=
  (st.find? (fun p => p.1 == k)).map (·.2)

/-- Dict update of an existing key. -/
def updateA (st : TrackState) (k : ℕ) (v : OpenInfo) : TrackState :=
  st.map (fun p => if p.1 = k then (k, v) else p)

/-- Body of the `for arb in arbs` loop (lines 195 to 225): open a fresh
entry, logging it and alerting when margin and volume clear the
thresholds, or bump the stored peak
(`if margin_pct > peak: peak = margin_pct`). -/
def procArb (cfg : ScanCfg) (now : ℚ) (acc : TrackState × List DbOp) (arb : Arb) :
    TrackState × List DbOp :=
  match lookupA acc.1 arb.id with
  | none =>
      (acc.1 ++ [(arb.id, ⟨now, arb.margin_pct⟩)],
       acc.2 ++ [DbOp.opened arb.id now arb.margin_pct] ++
         (if cfg.alertMargin * 100 ≤ arb.margin_pct ∧ cfg.minVolume ≤ arb.volume
          then [DbOp.alert arb.id] else []))
  | some info =>
      let peak := if info.peak_margin < arb.margin_pct then arb.margin_pct
                  else info.peak_margin
      (updateA acc.1 arb.id ⟨info.first_seen, peak⟩,
       acc.2 ++ [DbOp.update arb.id now peak])

/-- One poll cycle of `run_arb_scan` given the scanned arbs: process each
arb, then close every stored entry absent from the current id set
(lines 232 to 240), recording `gone_at = now`,
`duration = int(now - first_seen in seconds)` and the stored peak. -/
def trackStep (cfg : ScanCfg) (st : TrackState) (arbs : List Arb) (now : ℚ) :
    TrackState × List DbOp :=
  let r := arbs.foldl (procArb cfg now) (st, [])
  let current := arbs.map (fun a => a.id)
  let closes := (r.1.filter (fun p => decide (p.1 ∉ current))).map
    (fun p => DbOp.close p.1 now (pyInt (now - p.2.first_seen)) p.2.peak_margin)
  (r.1.filter (fun p => decide (p.1 ∈ current)), r.2 ++ closes)

/-- Function `scan_arbs` as its caller sees it, including the feed-query
error handler (lines 129 to 138): a query exception logs and returns the
empty list. -/
def scanArbsFeed (cfg : ScanCfg) (now : ℚ) (feed : Option (List Row)) : List Arb :=
  match feed with
  | none => []
  | some rows => scanArbs cfg now rows

/-- Function `run_arb_scan` (lines 184 to 243): the main-loop tick.  The
daily-report check (line 243) touches no tracker state and is omitted. -/
def run_arb_scan (cfg : ScanCfg) (enabled : Bool) (st : TrackState)
    (feed : Option (List Row)) (now : ℚ) : TrackState × List DbOp :=
  if enabled then trackStep cfg st (scanArbsFeed cfg now feed) now else (st, [])

/-- Input of one poll cycle: the scanned arbs and the current time. -/
abbrev PollCycle := List Arb × ℚ

/-- Several consecutive poll cycles, concatenating the emitted ops. -/
def runCycles (cfg : ScanCfg) : TrackState → List PollCycle → TrackState × List DbOp
  | st, [] => (st, [])
  | st, c :: cs =>
      let r1 := trackStep cfg st c.1 c.2
      let r2 := runCycles cfg r1.1 cs
      (r2.1, r1.2 ++ r2.2)

/-- Cycle arbs contain exactly one entry for `id`, with margin `m`. -/
def uniqueWithMargin (id : ℕ) (m : ℚ) (c : PollCycle) : Prop :=
  (c.1.filter (fun a => a.id == id)).map Arb.margin_pct = [m]

/-- No arb of the cycle carries `id`. -/
def absentFrom (id : ℕ) (c : PollCycle) : Prop := ∀ a ∈ c.1, a.id ≠ id

/-- Sequence of peak margins recorded for `id` by the open and update log
writes, in emission order. -/
def updatePeaks (id : ℕ) (ops : List DbOp) : List ℚ :=
  ops.filterMap fun op =>
    match op with
    | .opened i _ m => if i = id then some m else none
    | .update i _ p => if i = id then some p else none
    | _ => none

/-- Running maxima of `ms` starting from `p`. -/
def peaksFrom (p : ℚ) : List ℚ → List ℚ
  | [] => []
  | m :: t => max p m :: peaksFrom (max p m) t

/-!
## Execution saga — `arb_executor.py`

`_execute_arb_inner` (lines 148 to 481) is modelled as a pure function from
an environment of venue responses to the trace of its observable actions:
venue calls, operator notifications and execution-log rows, in program
order.  `execute_arb` (lines 128 to 146) adds the non-blocking lock
acquisition around it.
-/

/-- Executor configuration: the env-derived module constants with their
defaults. -/
structure ExecCfg where
  execEnabled : Bool := false
  backStake : ℚ := 5
  minMargin : ℚ := 1/200
  slippage : ℚ := 1/200
  commission : ℚ := 1/50
deriving DecidableEq

/-- Terminal outcome of one saga invocation: the `status` column written
by `_log_execution`, refined by the accompanying `error_message` so that
each abort reason is distinct. -/
inductive Outcome where
  | dryRun
  | bfNotFound
  | bfInplay
  | bfStatusNotOpen
  | bfRunnerInactive
  | bfNoLay
  | bfError
  | aoClientUnavailable
  | aoPlacementFailed
  | aoPriceInvalid
  | aoPlacementError
  | marginGone
  | aoPlaceFailed
  | aoNoRef
  | aoPlaceError
  | aoRejected
  | aoCancelled
  | aoVoid
  | aoTimeout
  | bfLayFailed
  | executed
deriving DecidableEq

/-- Venue interactions of the saga. -/
inductive CallTag where
  | bfListMarketBook
  | aoGetPlacementInfo
  | aoPlaceBet (amount : ℚ)
  | aoVerifyPoll
  | bfPlaceOrders (laySize : ℚ)
deriving DecidableEq

/-- Operator-facing Telegram messages: progress-step messages and the one
terminal message of each outcome. -/
inductive NoteTag where
  | busy
  | step1
  | step2
  | steps34
  | step5
  | step6start
  | step6ok
  | step7
  | outcomeMsg (o : Outcome)
deriving DecidableEq

/-- One observable action of the saga. -/
inductive Event where
  | call (t : CallTag)
  | notify (n : NoteTag)
  | log (o : Outcome)
deriving DecidableEq

/-- Step-1 revalidation response from the lay venue (`list_market_book`).
The flag `runnerActive` combines finding the runner and its status being
ACTIVE; `availableToLay` is the (price, size) ladder. -/
inductive BFResult where
  | error
  | noBooks
  | book (inplay : Bool) (statusOpen : Bool) (runnerActive : Bool)
      (availableToLay : List (ℚ × ℚ))
deriving DecidableEq

/-- Step-2 `GetPlacementInfo` response: exception, missing response or
nonzero code, or the parsed live price and stake bounds. -/
inductive AOPlacement where
  | error
  | failed
  | ok (odds minAmount maxAmount : ℚ)
deriving DecidableEq

/-- Step-5 `PlaceBet` response: exception, missing response or nonzero
code, or success carrying an optional bet reference. -/
inductive AOPlace where
  | error
  | failed
  | ok (betRef : Option ℕ)
deriving DecidableEq

/-- Bet status string of one verification poll, lower-cased. -/
inductive PollStatus where
  | confirmed
  | accepted
  | running
  | rejected
  | cancelled
  | void
  | other
deriving DecidableEq

/-- One iteration of the step-6 verification poll: exception (logged, the
loop continues), nonzero code or empty bet list (the loop continues), or a
bet status with an optional confirmed stake. -/
inductive PollR where
  | error
  | noBets
  | status (s : PollStatus) (stake : Option ℚ)
deriving DecidableEq

/-- Environment of one saga invocation: the originally observed context
prices plus every venue response the invocation might consume, in program
order.  The list `verify` holds the poll responses produced before
`EXEC_VERIFY_TIMEOUT` expires; exhausting it models the timeout. -/
structure ExecEnv where
  pin_back : ℚ := 0
  bf_lay : ℚ := 0
  bf : BFResult := .error
  aoClientAvailable : Bool := false
  placement : AOPlacement := .error
  place : AOPlace := .error
  verify : List PollR := []
  bfPlace : Option ℕ := none
deriving DecidableEq

/-- Terminal poll statuses that stop the saga inside the loop. -/
inductive RejKind where
  | rejected
  | cancelled
  | void
deriving DecidableEq

/-- Result of the verification poll loop. -/
inductive VerifyRes where
  | confirmedStake (stake : ℚ)
  | rejectedAs (k : RejKind)
  | timeout
deriving DecidableEq

/-- The log status `ao_<status>` written for a rejected-like poll result. -/
def rejOutcome : RejKind → Outcome
  | .rejected => .aoRejected
  | .cancelled => .aoCancelled
  | .void => .aoVoid

/-- Step-6 poll loop (lines 361 to 405): walk the poll responses until a
confirmed, accepted or running status (capturing the confirmed stake,
defaulting to the requested stake) or a rejected, cancelled or void
status; exhaustion is the timeout.  Returns the poll-call events and the
verdict. -/
def verifyLoop (aoStake : ℚ) : List PollR → List Event × VerifyRes
  | [] => ([], .timeout)
  | p :: rest =>
    match p with
    | .error =>
        let r := verifyLoop aoStake rest
        (Event.call .aoVerifyPoll :: r.1, r.2)
    | .noBets =>
        let r := verifyLoop aoStake rest
        (Event.call .aoVerifyPoll :: r.1, r.2)
    | .status s stake =>
      match s with
      | .confirmed => ([Event.call .aoVerifyPoll], .confirmedStake (stake.getD aoStake))
      | .accepted => ([Event.call .aoVerifyPoll], .confirmedStake (stake.getD aoStake))
      | .running => ([Event.call .aoVerifyPoll], .confirmedStake (stake.getD aoStake))
      | .rejected => ([Event.call .aoVerifyPoll], .rejectedAs .rejected)
      | .cancelled => ([Event.call .aoVerifyPoll], .rejectedAs .cancelled)
      | .void => ([Event.call .aoVerifyPoll], .rejectedAs .void)
      | .other =>
          let r := verifyLoop aoStake rest
          (Event.call .aoVerifyPoll :: r.1, r.2)

/-- Step-4 stake sizing (lines 289 to 302): clamp the target stake to the
back-venue min and max; when the required hedge exceeds the available lay
size, scale the back stake down proportionally with a 5 percent buffer
and re-clamp to the back-venue minimum.  Returns the back stake and the
lay stake it requires. -/
def adjustStake (commission backStake aoMin aoMax p_b p_l laySize : ℚ) : ℚ × ℚ :=
  let s1 := min (max backStake aoMin) aoMax
  let need := exec_calc_lay_stake commission s1 p_b p_l
  if laySize < need then
    let s2 := s1 * (laySize / need) * (19/20)
    let s3 := max s2 aoMin
    (s3, exec_calc_lay_stake commission s3 p_b p_l)
  else (s1, need)

/-- Shared epilogue of every non-success terminal outcome: the terminal
message, then the execution-log row. -/
def abortWith (pre : List Event) (o : Outcome) : List Event :=
  pre ++ [Event.notify (.outcomeMsg o), Event.log o]

/-- Function `_execute_arb_inner` as a trace of observable actions. -/
def sagaTrace (cfg : ExecCfg) (env : ExecEnv) : List Event :=
  if cfg.execEnabled = false then
    abortWith [] .dryRun
  else
    let pre1 : List Event := [Event.notify .step1, Event.call .bfListMarketBook]
    match env.bf with
    | .error => abortWith pre1 .bfError
    | .noBooks => abortWith pre1 .bfNotFound
    | .book inplay statusOpen runnerActive availableToLay =>
      if inplay then abortWith pre1 .bfInplay
      else if statusOpen = false then abortWith pre1 .bfStatusNotOpen
      else if runnerActive = false then abortWith pre1 .bfRunnerInactive
      else
        match availableToLay with
        | [] => abortWith pre1 .bfNoLay
        | (live_bf_lay, bf_lay_size) :: _ =>
          let pre2 := pre1 ++ [Event.notify .step2]
          if env.aoClientAvailable = false then abortWith pre2 .aoClientUnavailable
          else
            let pre2c := pre2 ++ [Event.call .aoGetPlacementInfo]
            match env.placement with
            | .error => abortWith pre2c .aoPlacementError
            | .failed => abortWith pre2c .aoPlacementFailed
            | .ok live_pin_price ao_min ao_max =>
              if live_pin_price ≤ 101/100 then abortWith pre2c .aoPriceInvalid
              else
                let margin := exec_calc_margin cfg.commission live_pin_price live_bf_lay
                if margin < cfg.minMargin + cfg.slippage then abortWith pre2c .marginGone
                else
                  let sized := adjustStake cfg.commission cfg.backStake ao_min ao_max
                    live_pin_price live_bf_lay bf_lay_size
                  let ao_stake := sized.1
                  let pre4 := pre2c ++ [Event.notify .steps34, Event.notify .step5,
                    Event.call (.aoPlaceBet ao_stake)]
                  match env.place with
                  | .error => abortWith pre4 .aoPlaceError
                  | .failed => abortWith pre4 .aoPlaceFailed
                  | .ok none => abortWith pre4 .aoNoRef
                  | .ok (some _) =>
                    let pre5 := pre4 ++ [Event.notify .step6start]
                    let v := verifyLoop ao_stake env.verify
                    let pre6 := pre5 ++ v.1
                    match v.2 with
                    | .rejectedAs k => abortWith pre6 (rejOutcome k)
                    | .timeout => abortWith pre6 .aoTimeout
                    | .confirmedStake confirmed_stake =>
                      let final_lay_stake := pyRound2 (exec_calc_lay_stake
                        cfg.commission confirmed_stake live_pin_price live_bf_lay)
                      let pre7 := pre6 ++ [Event.notify .step6ok, Event.notify .step7,
                        Event.call (.bfPlaceOrders final_lay_stake)]
                      match env.bfPlace with
                      | none => abortWith pre7 .bfLayFailed
                      | some _ =>
                        pre7 ++ [Event.log .executed, Event.notify (.outcomeMsg .executed)]

/-- Function `execute_arb` (lines 128 to 146): the non-blocking lock
acquisition; a held lock sends the busy message and returns without any
venue call. -/
def execute_arb (locked : Bool) (cfg : ExecCfg) (env : ExecEnv) : List Event :=
  if locked then [Event.notify .busy] else sagaTrace cfg env

/-- Test whether `e` is the log row or the terminal notification of
outcome `o`. -/
def isKeyFor (o : Outcome) (e : Event) : Bool :=
  match e with
  | .log o2 => o2 == o
  | .notify (.outcomeMsg o2) => o2 == o
  | _ => false

/-- The log row and terminal notification for `o`, in trace order. -/
def keyEvents (o : Outcome) (tr : List Event) : List Event := tr.filter (isKeyFor o)

/-- Test whether `e` is neither a log row nor a terminal notification. -/
def noKey (e : Event) : Bool :=
  match e with
  | .log _ => false
  | .notify (.outcomeMsg _) => false
  | _ => true

/-- The claimed relative order of the log row and terminal message of
outcome `o`: log first for the success outcome, message first otherwise
(the order the code actually emits). -/
def orderedPair (o : Outcome) : List Event :=
  if o = Outcome.executed then [Event.log o, Event.notify (.outcomeMsg o)]
  else [Event.notify (.outcomeMsg o), Event.log o]

/-!
## Theorems
-/

/-- C5: for every back price > 1.01, lay price > 1.01 and commission rate,
`calc_margin` (and its executor copy) returns exactly
`((1 − commission) × (backPrice − 1) − (layPrice − 1)) / backPrice`. -/
theorem calc_margin_formula (c p_b p_l : ℚ)
    (hb : 101/100 < p_b) (hl : 101/100 < p_l) :
    calc_margin c p_b p_l = ((1 - c) * (p_b - 1) - (p_l - 1)) / p_b ∧
    exec_calc_margin c p_b p_l = ((1 - c) * (p_b - 1) - (p_l - 1)) / p_b ∧
    exec_calc_margin c p_b p_l = calc_margin c p_b p_l := by
  exact ⟨rfl, rfl, rfl⟩

/-- Witness for C5 at back 2.10, lay 2.00, commission 0.02. -/
theorem calc_margin_formula_witness :
    calc_margin (1/50) (21/10) 2 = ((1 - 1/50) * (21/10 - 1) - (2 - 1)) / (21/10) := by
  exact (calc_margin_formula (1/50) (21/10) 2 (by norm_num) (by norm_num)).1

/-- C9: holding commission fixed (any rate in [0, 1)), `calc_margin` is
strictly decreasing in the lay price and strictly increasing in the back
price over valid decimal odds (> 1.01). -/
theorem calc_margin_monotone (c b b' l l' : ℚ)
    (hc0 : 0 ≤ c) (hc1 : c < 1)
    (hb : 101/100 < b) (hb' : 101/100 < b') (hl : 101/100 < l) (hl' : 101/100 < l') :
    (l < l' → calc_margin c b l' < calc_margin c b l) ∧
    (b < b' → calc_margin c b l < calc_margin c b' l) := by
  have hbpos : (0:ℚ) < b := by linarith
  have hbpos' : (0:ℚ) < b' := by linarith
  constructor
  · intro hll
    unfold calc_margin
    rw [div_lt_div_iff hbpos hbpos]
    nlinarith
  · intro hbb
    unfold calc_margin
    rw [div_lt_div_iff hbpos hbpos']
    have key : ((1 - c) * (b' - 1) - (l - 1)) * b - ((1 - c) * (b - 1) - (l - 1)) * b' =
        (b' - b) * ((1 - c) + (l - 1)) := by ring
    nlinarith

/-- Witness for C9: commission 0.02; raising the lay price from 2 to 2.1
lowers the margin at back 2.1, and raising the back price from 2.1 to 2.2
raises the margin at lay 2. -/
theorem calc_margin_monotone_witness :
    calc_margin (1/50) (21/10) (21/10) < calc_margin (1/50) (21/10) 2 ∧
    calc_margin (1/50) (21/10) 2 < calc_margin (1/50) (11/5) 2 := by
  have h := calc_margin_monotone (1/50) (21/10) (11/5) 2 (21/10)
    (by norm_num) (by norm_num) (by norm_num) (by norm_num) (by norm_num) (by norm_num)
  exact ⟨h.1 (by norm_num), h.2 (by norm_num)⟩

/-- C10: for back price > 1.01, lay price > 1.01 and commission in [0, 1),
the divisor of `calc_margin` (the back price, guarded by the price-floor
check at `scan_arbs` line 147) and the divisor
`p_l - commission * (p_l - 1)` of `calc_lay_stake` are strictly positive,
and `calc_lay_stake` (and its executor copy) returns a strictly positive
lay stake for any positive back stake. -/
theorem calc_divisors_pos (c S p_b p_l : ℚ)
    (hb : 101/100 < p_b) (hl : 101/100 < p_l)
    (hc0 : 0 ≤ c) (hc1 : c < 1) (hS : 0 < S) :
    0 < p_b ∧ 0 < p_l - c * (p_l - 1) ∧ 0 < calc_lay_stake c S p_b p_l ∧
    0 < exec_calc_lay_stake c S p_b p_l := by
  have hbpos : (0:ℚ) < p_b := by linarith
  have hden : (0:ℚ) < p_l - c * (p_l - 1) := by nlinarith
  have hstake : 0 < calc_lay_stake c S p_b p_l := by
    unfold calc_lay_stake
    exact div_pos (mul_pos hS hbpos) hden
  exact ⟨hbpos, hden, hstake, hstake⟩

/-- Witness for C10 at commission 0.02, back stake 5, back 2.10, lay 2.00. -/
theorem calc_divisors_pos_witness :
    0 < (21/10 : ℚ) ∧ 0 < (2 : ℚ) - (1/50) * (2 - 1) ∧
    0 < calc_lay_stake (1/50) 5 (21/10) 2 ∧
    0 < exec_calc_lay_stake (1/50) 5 (21/10) 2 :=
  calc_divisors_pos (1/50) 5 (21/10) 2 (by norm_num) (by norm_num)
    (by norm_num) (by norm_num) (by norm_num)

/-- Counterexample to C6 as stated: with commission charged on the net lay
win (the position keeps `lay_stake * (1 - commission)`), the lay stake
from `calc_lay_stake` does **not** equalise the two legs.  At back stake
100, back 3.5, lay 3.0, commission 0.02 the lay stake is 4375/37 ≈ 118.24;
the position nets 500/37 ≈ 13.51 if the back wins but 1175/74 ≈ 15.88 if
it loses. -/
theorem hedge_netwin_counterexample :
    calc_lay_stake (1/50) 100 (7/2) 3 = 4375/37 ∧
    profitBackWins 100 (7/2) 3 (calc_lay_stake (1/50) 100 (7/2) 3) = 500/37 ∧
    profitBackLosesNetWin (1/50) 100 (calc_lay_stake (1/50) 100 (7/2) 3) = 1175/74 ∧
    profitBackWins 100 (7/2) 3 (calc_lay_stake (1/50) 100 (7/2) 3) ≠
      profitBackLosesNetWin (1/50) 100 (calc_lay_stake (1/50) 100 (7/2) 3) := by
  refine ⟨by norm_num [calc_lay_stake], by norm_num [calc_lay_stake, profitBackWins],
    by norm_num [calc_lay_stake, profitBackLosesNetWin], ?_⟩
  norm_num [calc_lay_stake, profitBackWins, profitBackLosesNetWin]

/-- C6 amended: the lay stake from `calc_lay_stake` yields equal net
profit whether the back leg wins or loses when commission is charged on
the lay liability `lay_stake × (layPrice − 1)` — the base its divisor
`layPrice − commission × (layPrice − 1)` encodes — rather than on the net
lay win; under net-win commission the equality holds at layPrice = 2
(where the two bases coincide). -/
theorem hedge_equal_profit (c S p_b p_l : ℚ)
    (hb : 101/100 < p_b) (hl : 101/100 < p_l)
    (hc0 : 0 ≤ c) (hc1 : c < 1) (hS : 0 < S) :
    profitBackWins S p_b p_l (calc_lay_stake c S p_b p_l) =
      profitBackLosesLiability c S p_l (calc_lay_stake c S p_b p_l) ∧
    (p_l = 2 →
      profitBackWins S p_b p_l (calc_lay_stake c S p_b p_l) =
        profitBackLosesNetWin c S (calc_lay_stake c S p_b p_l)) := by
  have hden : (0:ℚ) < p_l - c * (p_l - 1) := by nlinarith
  have hden' : p_l - c * (p_l - 1) ≠ 0 := ne_of_gt hden
  constructor
  · unfold profitBackWins profitBackLosesLiability calc_lay_stake
    field_simp
    ring
  · intro h2
    subst h2
    unfold profitBackWins profitBackLosesNetWin calc_lay_stake
    have hden2 : (2:ℚ) - c * (2 - 1) ≠ 0 := by norm_num at hden' ⊢; linarith
    field_simp
    ring

/-- Witness for C6 amended at commission 0.02, back stake 100, back 3.5,
lay 3.0. -/
theorem hedge_equal_profit_witness :
    profitBackWins 100 (7/2) 3 (calc_lay_stake (1/50) 100 (7/2) 3) =
      profitBackLosesLiability (1/50) 100 3 (calc_lay_stake (1/50) 100 (7/2) 3) :=
  (hedge_equal_profit (1/50) 100 (7/2) 3 (by norm_num) (by norm_num)
    (by norm_num) (by norm_num) (by norm_num)).1

/-- C7: `scan_arbs` returns exactly the rows whose back and lay prices
both strictly exceed 1.01, whose observation timestamp is present (and
parseable) and no older than the staleness threshold, and whose margin
lies within the configured band, sorted descending by recorded margin. -/
theorem scan_arbs_spec (cfg : ScanCfg) (now : ℚ) (rows : List Row) :
    List.Perm (scanArbs cfg now rows) (rows.filterMap (rowArb cfg now)) ∧
    List.Sorted arbGE (scanArbs cfg now rows) ∧
    ∀ r ∈ rows, ((rowArb cfg now r).isSome ↔
      (101/100 < r.price_pinnacle.getD 0 ∧ 101/100 < r.lay_price.getD 0 ∧
       ∃ t, r.last_updated = .stamp t ∧ now - t ≤ cfg.maxAge ∧
         cfg.minMargin ≤ calc_margin cfg.commission (r.price_pinnacle.getD 0) (r.lay_price.getD 0) ∧
         calc_margin cfg.commission (r.price_pinnacle.getD 0) (r.lay_price.getD 0) ≤ cfg.maxMargin)) := by
  refine ⟨List.perm_insertionSort arbGE _, List.sorted_insertionSort arbGE _, ?_⟩
  intro r _
  unfold rowArb
  rcases r with ⟨id, pb, pl, bb, vol, lu⟩
  simp only [not_or, not_le, not_lt]
  cases lu with
  | missing => simp
  | malformed => simp
  | stamp t =>
    by_cases h1 : Option.getD pb 0 ≤ 101/100 ∨ Option.getD pl 0 ≤ 101/100
    · simp only [if_pos h1, Option.isSome_none]
      constructor
      · intro h; simp at h
      · rintro ⟨ha, hb, -⟩
        rcases h1 with h1 | h1 <;> [exact absurd ha (not_lt.2 h1); exact absurd hb (not_lt.2 h1)]
    · simp only [if_neg h1]
      push_neg at h1
      by_cases h2 : now - t > cfg.maxAge
      · simp only [if_pos h2, Option.isSome_none]
        constructor
        · intro h; simp at h
        · rintro ⟨-, -, t', ht', hage, -⟩
          cases ht'
          exact absurd hage (not_le.2 h2)
      · simp only [if_neg h2]
        push_neg at h2
        by_cases h3 : cfg.minMargin ≤ calc_margin cfg.commission (Option.getD pb 0) (Option.getD pl 0) ∧
            calc_margin cfg.commission (Option.getD pb 0) (Option.getD pl 0) ≤ cfg.maxMargin
        · simp only [if_pos h3, Option.isSome_some, true_iff]
          exact ⟨h1.1, h1.2, t, rfl, h2, h3.1, h3.2⟩
        · simp only [if_neg h3, Option.isSome_none]
          constructor
          · intro h; simp at h
          · rintro ⟨-, -, t', ht', -, hm1, hm2⟩
            cases ht'
            exact (h3 ⟨hm1, hm2⟩).elim

/-- Lookup into a cons cell. -/
theorem lookupA_cons (p : ℕ × OpenInfo) (st : TrackState) (k : ℕ) :
    lookupA (p :: st) k = if p.1 = k then some p.2 else lookupA st k := by
  by_cases h : p.1 = k
  · simp [lookupA, List.find?_cons_of_pos, h]
  · simp [lookupA, List.find?_cons_of_neg, h]

/-- A hit in the left part of an append survives the append. -/
theorem lookupA_append_left {st : TrackState} {k : ℕ} {x : OpenInfo}
    (l : TrackState) (h : lookupA st k = some x) :
    lookupA (st ++ l) k = some x := by
  induction st with
  | nil => simp [lookupA] at h
  | cons p t ih =>
    rw [List.cons_append, lookupA_cons]
    rw [lookupA_cons] at h
    by_cases hp : p.1 = k
    · simpa [hp] using h
    · rw [if_neg hp] at h ⊢
      exact ih h

/-- A miss in the left part of an append defers to the right part. -/
theorem lookupA_append_right {st : TrackState} {k : ℕ}
    (l : TrackState) (h : lookupA st k = none) :
    lookupA (st ++ l) k = lookupA l k := by
  induction st with
  | nil => simp
  | cons p t ih =>
    rw [List.cons_append, lookupA_cons]
    rw [lookupA_cons] at h
    by_cases hp : p.1 = k
    · simp [hp] at h
    · rw [if_neg hp] at h ⊢
      exact ih h

/-- Updating another key leaves a lookup unchanged. -/
theorem lookupA_updateA_ne {st : TrackState} {k id : ℕ} {v : OpenInfo}
    (h : k ≠ id) : lookupA (updateA st k v) id = lookupA st id := by
  induction st with
  | nil => rfl
  | cons p t ih =>
    show lookupA ((if p.1 = k then (k, v) else p) :: updateA t k v) id = _
    rw [lookupA_cons, lookupA_cons]
    by_cases hp : p.1 = k
    · simp only [if_pos hp]
      rw [if_neg h, if_neg (hp ▸ h), ih]
    · simp only [if_neg hp]
      by_cases hq : p.1 = id
      · rw [if_pos hq, if_pos hq]
      · rw [if_neg hq, if_neg hq, ih]

/-- Updating a present key makes its lookup return the new value. -/
theorem lookupA_updateA_self {st : TrackState} {k : ℕ} {v x : OpenInfo}
    (h : lookupA st k = some x) : lookupA (updateA st k v) k = some v := by
  induction st with
  | nil => simp [lookupA] at h
  | cons p t ih =>
    rw [lookupA_cons] at h
    show lookupA ((if p.1 = k then (k, v) else p) :: updateA t k v) k = _
    rw [lookupA_cons]
    by_cases hp : p.1 = k
    · simp [hp]
    · rw [if_neg hp] at h
      simp only [if_neg hp]
      exact ih h

/-- A successful lookup exhibits a member pair. -/
theorem lookupA_mem {st : TrackState} {k : ℕ} {v : OpenInfo}
    (h : lookupA st k = some v) : (k, v) ∈ st := by
  induction st with
  | nil => simp [lookupA] at h
  | cons p t ih =>
    rw [lookupA_cons] at h
    by_cases hp : p.1 = k
    · rw [if_pos hp] at h
      have hv : p.2 = v := by injection h
      have hpkv : p = (k, v) := Prod.ext hp hv
      rw [← hpkv]
      exact List.mem_cons_self _ _
    · rw [if_neg hp] at h
      exact List.mem_cons_of_mem _ (ih h)

/-- Filtering to the ids in `cur` preserves lookups of members of `cur`. -/
theorem lookupA_filter_mem {st : TrackState} {k : ℕ} {cur : List ℕ} (h : k ∈ cur) :
    lookupA (st.filter (fun p => decide (p.1 ∈ cur))) k = lookupA st k := by
  induction st with
  | nil => rfl
  | cons p t ih =>
    rw [List.filter_cons]
    by_cases hp : p.1 ∈ cur
    · rw [if_pos (by simp [hp])]
      rw [lookupA_cons, lookupA_cons, ih]
    · rw [if_neg (by simp [hp])]
      rw [lookupA_cons]
      by_cases hq : p.1 = k
      · exact absurd (hq ▸ h) hp
      · rw [if_neg hq, ih]

/-- Filtering to the ids in `cur` erases lookups of non-members. -/
theorem lookupA_filter_not_mem {st : TrackState} {k : ℕ} {cur : List ℕ} (h : k ∉ cur) :
    lookupA (st.filter (fun p => decide (p.1 ∈ cur))) k = none := by
  induction st with
  | nil => rfl
  | cons p t ih =>
    rw [List.filter_cons]
    by_cases hp : p.1 ∈ cur
    · rw [if_pos (by simp [hp])]
      rw [lookupA_cons]
      have hpk : p.1 ≠ k := fun hq => h (hq ▸ hp)
      rw [if_neg hpk, ih]
    · rw [if_neg (by simp [hp])]
      exact ih

/-- The peak sequence distributes over append. -/
theorem updatePeaks_append (id : ℕ) (l1 l2 : List DbOp) :
    updatePeaks id (l1 ++ l2) = updatePeaks id l1 ++ updatePeaks id l2 := by
  simp [updatePeaks, List.filterMap_append]

/-- Close rows contribute nothing to the peak sequence. -/
theorem updatePeaks_closes (id : ℕ) (l : TrackState) (now : ℚ) :
    updatePeaks id (l.map
      (fun p => DbOp.close p.1 now (pyInt (now - p.2.first_seen)) p.2.peak_margin)) = [] := by
  induction l with
  | nil => rfl
  | cons p t ih => simpa [updatePeaks, List.filterMap_cons] using ih

/-- The conditional bump written by the update branch equals a max. -/
theorem ite_lt_eq_max (p m : ℚ) : (if p < m then m else p) = max p m := by
  rcases lt_or_le p m with h | h
  · rw [if_pos h, max_eq_right h.le]
  · rw [if_neg (not_lt.2 h), max_eq_left h]

/-- Processing an arb of a different id changes neither the lookup of `id`
nor its peak sequence. -/
theorem procArb_ne (cfg : ScanCfg) (now : ℚ) (acc : TrackState × List DbOp)
    (arb : Arb) (id : ℕ) (h : arb.id ≠ id) :
    lookupA (procArb cfg now acc arb).1 id = lookupA acc.1 id ∧
    updatePeaks id (procArb cfg now acc arb).2 = updatePeaks id acc.2 := by
  unfold procArb
  cases hl : lookupA acc.1 arb.id with
  | none =>
    simp only
    constructor
    · cases h2 : lookupA acc.1 id with
      | none =>
        rw [lookupA_append_right _ h2, lookupA_cons]
        simp [h, lookupA]
      | some x => rw [lookupA_append_left _ h2]
    · rw [updatePeaks_append, updatePeaks_append]
      have h1 : updatePeaks id [DbOp.opened arb.id now arb.margin_pct] = [] := by
        simp [updatePeaks, List.filterMap_cons, h]
      have h2 : updatePeaks id
          (if cfg.alertMargin * 100 ≤ arb.margin_pct ∧ cfg.minVolume ≤ arb.volume
           then [DbOp.alert arb.id] else []) = [] := by
        split <;> simp [updatePeaks, List.filterMap_cons]
      rw [h1, h2, List.append_nil, List.append_nil]
  | some info =>
    simp only
    constructor
    · exact lookupA_updateA_ne h
    · rw [updatePeaks_append]
      have : updatePeaks id [DbOp.update arb.id now
          (if info.peak_margin < arb.margin_pct then arb.margin_pct else info.peak_margin)] = [] := by
        simp [updatePeaks, List.filterMap_cons, h]
      rw [this, List.append_nil]

/-- Processing an arb whose id is not yet stored opens it: first seen now,
peak the current margin, one opened row appended to the peak sequence. -/
theorem procArb_opens (cfg : ScanCfg) (now : ℚ) (acc : TrackState × List DbOp)
    (arb : Arb) (h : lookupA acc.1 arb.id = none) :
    lookupA (procArb cfg now acc arb).1 arb.id = some ⟨now, arb.margin_pct⟩ ∧
    updatePeaks arb.id (procArb cfg now acc arb).2 =
      updatePeaks arb.id acc.2 ++ [arb.margin_pct] := by
  unfold procArb
  rw [h]
  simp only
  constructor
  · rw [lookupA_append_right _ h, lookupA_cons]
    simp
  · rw [updatePeaks_append, updatePeaks_append]
    have h1 : updatePeaks arb.id [DbOp.opened arb.id now arb.margin_pct] =
        [arb.margin_pct] := by
      simp [updatePeaks, List.filterMap_cons]
    have h2 : updatePeaks arb.id
        (if cfg.alertMargin * 100 ≤ arb.margin_pct ∧ cfg.minVolume ≤ arb.volume
         then [DbOp.alert arb.id] else []) = [] := by
      split <;> simp [updatePeaks, List.filterMap_cons]
    rw [h1, h2, List.append_nil]

/-- Processing an arb whose id is stored bumps the stored peak to the max
of the old peak and the current margin, appending one update row. -/
theorem procArb_updates (cfg : ScanCfg) (now : ℚ) (acc : TrackState × List DbOp)
    (arb : Arb) (f p : ℚ) (h : lookupA acc.1 arb.id = some ⟨f, p⟩) :
    lookupA (procArb cfg now acc arb).1 arb.id = some ⟨f, max p arb.margin_pct⟩ ∧
    updatePeaks arb.id (procArb cfg now acc arb).2 =
      updatePeaks arb.id acc.2 ++ [max p arb.margin_pct] := by
  unfold procArb
  rw [h]
  simp only
  rw [ite_lt_eq_max]
  constructor
  · exact lookupA_updateA_self h
  · rw [updatePeaks_append]
    congr 1
    simp [updatePeaks, List.filterMap_cons]

/-- Folding over arbs none of which carry `id` changes neither the lookup
of `id` nor its peak sequence. -/
theorem foldl_proc_none (cfg : ScanCfg) (now : ℚ) (id : ℕ) :
    ∀ (arbs : List Arb) (acc : TrackState × List DbOp),
      (∀ a ∈ arbs, a.id ≠ id) →
      lookupA (arbs.foldl (procArb cfg now) acc).1 id = lookupA acc.1 id ∧
      updatePeaks id (arbs.foldl (procArb cfg now) acc).2 = updatePeaks id acc.2 := by
  intro arbs
  induction arbs with
  | nil => intro acc _; exact ⟨rfl, rfl⟩
  | cons a t ih =>
    intro acc hall
    have ha : a.id ≠ id := hall a (List.mem_cons_self _ _)
    have ht : ∀ b ∈ t, b.id ≠ id := fun b hb => hall b (List.mem_cons_of_mem _ hb)
    rw [List.foldl_cons]
    have hstep := procArb_ne cfg now acc a id ha
    have hrec := ih (procArb cfg now acc a) ht
    exact ⟨hrec.1.trans hstep.1, hrec.2.trans hstep.2⟩

/-- Folding over arbs exactly one of which carries `id` (with margin `m`),
starting from a state that stores `id` with first-seen `f` and peak `p`,
bumps the stored peak to `max p m` and appends exactly that one recorded
peak. -/
theorem foldl_proc_unique_update (cfg : ScanCfg) (now : ℚ) (id : ℕ) (m f p : ℚ) :
    ∀ (arbs : List Arb) (acc : TrackState × List DbOp),
      (arbs.filter (fun a => a.id == id)).map Arb.margin_pct = [m] →
      lookupA acc.1 id = some ⟨f, p⟩ →
      lookupA (arbs.foldl (procArb cfg now) acc).1 id = some ⟨f, max p m⟩ ∧
      updatePeaks id (arbs.foldl (procArb cfg now) acc).2 =
        updatePeaks id acc.2 ++ [max p m] := by
  intro arbs
  induction arbs with
  | nil => intro acc hu; simp at hu
  | cons a t ih =>
    intro acc hu hacc
    rw [List.filter_cons] at hu
    by_cases hid : a.id = id
    · rw [if_pos (by simp [hid])] at hu
      simp only [List.map_cons, List.cons.injEq] at hu
      obtain ⟨hm, hrest⟩ := hu
      have hnone : ∀ b ∈ t, b.id ≠ id := by
        intro b hb hbid
        have : b ∈ t.filter (fun a => a.id == id) := by
          rw [List.mem_filter]
          exact ⟨hb, by simp [hbid]⟩
        rw [List.map_eq_nil] at hrest
        rw [hrest] at this
        simp at this
      rw [List.foldl_cons]
      have hacc' : lookupA acc.1 a.id = some ⟨f, p⟩ := by rw [hid]; exact hacc
      have hstep := procArb_updates cfg now acc a f p hacc'
      have hrec := foldl_proc_none cfg now id t (procArb cfg now acc a) hnone
      refine ⟨?_, ?_⟩
      · rw [hrec.1, ← hid, hstep.1, hm]
      · rw [hrec.2, ← hid, hstep.2, hm]
    · rw [if_neg (by simp [hid])] at hu
      rw [List.foldl_cons]
      have hstep := procArb_ne cfg now acc a id hid
      have hrec := ih (procArb cfg now acc a) hu (hstep.1.trans hacc)
      exact ⟨hrec.1, by rw [hrec.2, hstep.2]⟩

/-- Folding over arbs exactly one of which carries `id` (with margin `m`),
starting from a state without `id`, opens it with first-seen `now` and
peak `m`, appending exactly that one recorded peak. -/
theorem foldl_proc_unique_open (cfg : ScanCfg) (now : ℚ) (id : ℕ) (m : ℚ) :
    ∀ (arbs : List Arb) (acc : TrackState × List DbOp),
      (arbs.filter (fun a => a.id == id)).map Arb.margin_pct = [m] →
      lookupA acc.1 id = none →
      lookupA (arbs.foldl (procArb cfg now) acc).1 id = some ⟨now, m⟩ ∧
      updatePeaks id (arbs.foldl (procArb cfg now) acc).2 =
        updatePeaks id acc.2 ++ [m] := by
  intro arbs
  induction arbs with
  | nil => intro acc hu; simp at hu
  | cons a t ih =>
    intro acc hu hacc
    rw [List.filter_cons] at hu
    by_cases hid : a.id = id
    · rw [if_pos (by simp [hid])] at hu
      simp only [List.map_cons, List.cons.injEq] at hu
      obtain ⟨hm, hrest⟩ := hu
      have hnone : ∀ b ∈ t, b.id ≠ id := by
        intro b hb hbid
        have : b ∈ t.filter (fun a => a.id == id) := by
          rw [List.mem_filter]
          exact ⟨hb, by simp [hbid]⟩
        rw [List.map_eq_nil] at hrest
        rw [hrest] at this
        simp at this
      rw [List.foldl_cons]
      have hacc' : lookupA acc.1 a.id = none := by rw [hid]; exact hacc
      have hstep := procArb_opens cfg now acc a hacc'
      have hrec := foldl_proc_none cfg now id t (procArb cfg now acc a) hnone
      refine ⟨?_, ?_⟩
      · rw [hrec.1, ← hid, hstep.1, hm]
      · rw [hrec.2, ← hid, hstep.2, hm]
    · rw [if_neg (by simp [hid])] at hu
      rw [List.foldl_cons]
      have hstep := procArb_ne cfg now acc a id hid
      have hrec := ih (procArb cfg now acc a) hu (hstep.1.trans hacc)
      exact ⟨hrec.1, by rw [hrec.2, hstep.2]⟩

/-- A unique occurrence puts `id` among the current ids of the cycle. -/
theorem unique_mem_current {id : ℕ} {m : ℚ} {arbs : List Arb}
    (hu : (arbs.filter (fun a => a.id == id)).map Arb.margin_pct = [m]) :
    id ∈ arbs.map (fun a => a.id) := by
  rcases hf : arbs.filter (fun a => a.id == id) with _ | ⟨a, t⟩
  · rw [hf] at hu; simp at hu
  · have : a ∈ arbs.filter (fun a => a.id == id) := by rw [hf]; exact List.mem_cons_self _ _
    rw [List.mem_filter] at this
    rw [List.mem_map]
    exact ⟨a, this.1, by simpa using this.2⟩

/-- A cycle in which `id` appears exactly once (margin `m`) while `id` is
stored with first-seen `f` and peak `p` updates the entry to peak
`max p m` and records exactly that peak. -/
theorem trackStep_update (cfg : ScanCfg) (st : TrackState) (arbs : List Arb)
    (now : ℚ) (id : ℕ) (m f p : ℚ)
    (hu : (arbs.filter (fun a => a.id == id)).map Arb.margin_pct = [m])
    (h : lookupA st id = some ⟨f, p⟩) :
    lookupA (trackStep cfg st arbs now).1 id = some ⟨f, max p m⟩ ∧
    updatePeaks id (trackStep cfg st arbs now).2 = [max p m] := by
  unfold trackStep
  simp only
  have hfold := foldl_proc_unique_update cfg now id m f p arbs (st, []) hu h
  have hcur : id ∈ arbs.map (fun a => a.id) := unique_mem_current hu
  constructor
  · rw [lookupA_filter_mem hcur, hfold.1]
  · rw [updatePeaks_append, updatePeaks_closes, List.append_nil, hfold.2]
    rfl

/-- A cycle in which `id` appears exactly once (margin `m`) while `id` is
not stored opens the entry with first-seen `now` and peak `m`, recording
exactly that peak. -/
theorem trackStep_open (cfg : ScanCfg) (st : TrackState) (arbs : List Arb)
    (now : ℚ) (id : ℕ) (m : ℚ)
    (hu : (arbs.filter (fun a => a.id == id)).map Arb.margin_pct = [m])
    (h : lookupA st id = none) :
    lookupA (trackStep cfg st arbs now).1 id = some ⟨now, m⟩ ∧
    updatePeaks id (trackStep cfg st arbs now).2 = [m] := by
  unfold trackStep
  simp only
  have hfold := foldl_proc_unique_open cfg now id m arbs (st, []) hu h
  have hcur : id ∈ arbs.map (fun a => a.id) := unique_mem_current hu
  constructor
  · rw [lookupA_filter_mem hcur, hfold.1]
  · rw [updatePeaks_append, updatePeaks_closes, List.append_nil, hfold.2]
    rfl

/-- A cycle from which `id` is absent while `id` is stored with first-seen
`f` and peak `p` closes the entry: the close row carries `gone_at = now`,
`duration = int(now - f)` and peak `p`; the entry leaves the state, and no
peak is recorded. -/
theorem trackStep_absent (cfg : ScanCfg) (st : TrackState) (arbs : List Arb)
    (now : ℚ) (id : ℕ) (f p : ℚ)
    (habs : ∀ a ∈ arbs, a.id ≠ id)
    (h : lookupA st id = some ⟨f, p⟩) :
    lookupA (trackStep cfg st arbs now).1 id = none ∧
    DbOp.close id now (pyInt (now - f)) p ∈ (trackStep cfg st arbs now).2 ∧
    updatePeaks id (trackStep cfg st arbs now).2 = [] := by
  unfold trackStep
  simp only
  have hfold := foldl_proc_none cfg now id arbs (st, []) habs
  have hlook : lookupA (arbs.foldl (procArb cfg now) (st, [])).1 id = some ⟨f, p⟩ :=
    hfold.1.trans h
  have hcur : id ∉ arbs.map (fun a => a.id) := by
    rw [List.mem_map]
    rintro ⟨a, ha, haid⟩
    exact habs a ha haid
  refine ⟨lookupA_filter_not_mem hcur, ?_, ?_⟩
  · apply List.mem_append_right
    rw [List.mem_map]
    refine ⟨(id, ⟨f, p⟩), ?_, rfl⟩
    rw [List.mem_filter]
    exact ⟨lookupA_mem hlook, by simpa using hcur⟩
  · rw [updatePeaks_append, updatePeaks_closes, List.append_nil, hfold.2]
    rfl

/-- Running the middle cycles: while `id` appears exactly once per cycle
with margins `ms`, the stored first-seen time is preserved, the stored
peak becomes the fold of max over `ms`, and the recorded peaks are the
running maxima. -/
theorem runCycles_present (cfg : ScanCfg) (id : ℕ) :
    ∀ (ms : List ℚ) (rest : List PollCycle),
      List.Forall₂ (fun m c => uniqueWithMargin id m c) ms rest →
      ∀ (st : TrackState) (f p : ℚ), lookupA st id = some ⟨f, p⟩ →
      lookupA (runCycles cfg st rest).1 id = some ⟨f, ms.foldl max p⟩ ∧
      updatePeaks id (runCycles cfg st rest).2 = peaksFrom p ms := by
  intro ms rest hall
  induction hall with
  | nil =>
    intro st f p h
    exact ⟨h, rfl⟩
  | cons hmc hrest ih =>
    intro st f p h
    rename_i m c ms2 rest2
    show lookupA (runCycles cfg st (c :: rest2)).1 id = _ ∧ _
    have hstep := trackStep_update cfg st c.1 c.2 id m f p hmc h
    have hrec := ih (trackStep cfg st c.1 c.2).1 f (max p m) hstep.1
    unfold runCycles
    simp only
    refine ⟨hrec.1, ?_⟩
    rw [updatePeaks_append, hstep.2, hrec.2]
    rfl

/-- The recorded running maxima form a non-decreasing chain from `p`. -/
theorem chain_peaksFrom (p : ℚ) (ms : List ℚ) :
    List.Chain' (· ≤ ·) (p :: peaksFrom p ms) := by
  induction ms generalizing p with
  | nil => simp [peaksFrom]
  | cons m t ih =>
    rw [peaksFrom, List.chain'_cons]
    exact ⟨le_max_left p m, ih (max p m)⟩

/-- Concatenating cycle lists composes the runs. -/
theorem runCycles_append (cfg : ScanCfg) (l1 l2 : List PollCycle) :
    ∀ st : TrackState, runCycles cfg st (l1 ++ l2) =
      ((runCycles cfg (runCycles cfg st l1).1 l2).1,
       (runCycles cfg st l1).2 ++ (runCycles cfg (runCycles cfg st l1).1 l2).2) := by
  induction l1 with
  | nil => intro st; simp [runCycles]
  | cons c t ih =>
    intro st
    simp only [List.cons_append, runCycles, List.append_eq]
    rw [ih]
    simp [List.append_assoc]

/-- C3 amended: starting from a state without `id`, over a run in which
`id` appears (uniquely per cycle) in cycle `c0` with margin `m0` and in
the following cycles `rest` with margins `ms`, and is then absent from
cycle `cN`, the tracker records a non-decreasing chain of peak margins,
and the close row carries `gone_at = cN` time,
`duration = int(close time - first seen)` — the close-cycle time, not the
last-seen time — and peak margin equal to the running max of all observed
margins; the entry leaves the in-memory state. -/
theorem tracker_peak_and_close (cfg : ScanCfg) (st0 : TrackState) (id : ℕ)
    (c0 : PollCycle) (rest : List PollCycle) (cN : PollCycle) (m0 : ℚ) (ms : List ℚ)
    (h0 : lookupA st0 id = none)
    (hc0 : uniqueWithMargin id m0 c0)
    (hrest : List.Forall₂ (fun m c => uniqueWithMargin id m c) ms rest)
    (habs : absentFrom id cN) :
    DbOp.close id cN.2 (pyInt (cN.2 - c0.2)) (ms.foldl max m0) ∈
      (runCycles cfg st0 (c0 :: rest ++ [cN])).2 ∧
    lookupA (runCycles cfg st0 (c0 :: rest ++ [cN])).1 id = none ∧
    List.Chain' (· ≤ ·) (updatePeaks id (runCycles cfg st0 (c0 :: rest ++ [cN])).2) := by
  have hopen := trackStep_open cfg st0 c0.1 c0.2 id m0 hc0 h0
  have hmid := runCycles_present cfg id ms rest hrest
    (trackStep cfg st0 c0.1 c0.2).1 c0.2 m0 hopen.1
  have hfin := trackStep_absent cfg
    (runCycles cfg (trackStep cfg st0 c0.1 c0.2).1 rest).1 cN.1 cN.2 id
    c0.2 (ms.foldl max m0) habs hmid.1
  have hsplit : runCycles cfg st0 (c0 :: rest ++ [cN]) =
      ((trackStep cfg (runCycles cfg (trackStep cfg st0 c0.1 c0.2).1 rest).1 cN.1 cN.2).1,
       (trackStep cfg st0 c0.1 c0.2).2 ++
         ((runCycles cfg (trackStep cfg st0 c0.1 c0.2).1 rest).2 ++
          ((trackStep cfg (runCycles cfg (trackStep cfg st0 c0.1 c0.2).1 rest).1 cN.1 cN.2).2 ++
            []))) := by
    show runCycles cfg st0 (c0 :: (rest ++ [cN])) = _
    simp only [runCycles]
    rw [runCycles_append cfg rest [cN]]
    simp only [runCycles]
  rw [hsplit]
  refine ⟨?_, hfin.1, ?_⟩
  · apply List.mem_append_right
    apply List.mem_append_right
    apply List.mem_append_left
    exact hfin.2.1
  · rw [updatePeaks_append, updatePeaks_append, updatePeaks_append,
      hopen.2, hmid.2, hfin.2.2]
    simpa [updatePeaks] using chain_peaksFrom m0 ms

/-- Witness for C3 amended: id 1 opens at time 0 with margin 5, updates at
time 10 with margin 7, disappears at time 20: the close row records
gone-at 20, duration 20, peak 7. -/
theorem tracker_peak_and_close_witness :
    DbOp.close 1 20 (pyInt ((20:ℚ) - 0)) (List.foldl max 5 [7]) ∈
      (runCycles {} []
        (([{ id := 1, pin_back := 21/10, bf_lay := 2, bf_back := 0,
             margin_pct := 5, profit_per_100 := 5, volume := 0 }], (0:ℚ)) ::
         [([{ id := 1, pin_back := 21/10, bf_lay := 2, bf_back := 0,
              margin_pct := 7, profit_per_100 := 7, volume := 0 }], (10:ℚ))] ++
         [(([] : List Arb), (20:ℚ))])).2 :=
  (tracker_peak_and_close {} [] 1 _ _ _ 5 [7] rfl
    (by simp [uniqueWithMargin, List.filter])
    (List.Forall₂.cons (by simp [uniqueWithMargin, List.filter]) List.Forall₂.nil)
    (by simp [absentFrom])).1

/-- Counterexample to C3 as stated: the close row records
`duration = close-cycle time − first_seen`, not
`last_seen − first_seen`.  A three-cycle run (seen at 0 and 10, gone at
20) writes last-seen 10 yet duration 20, and 20 ≠ int(10 − 0). -/
theorem close_duration_counterexample :
    (runCycles {} []
      [([{ id := 1, pin_back := 21/10, bf_lay := 2, bf_back := 0,
           margin_pct := 5, profit_per_100 := 5, volume := 0 }], 0),
       ([{ id := 1, pin_back := 21/10, bf_lay := 2, bf_back := 0,
           margin_pct := 5, profit_per_100 := 5, volume := 0 }], 10),
       ([], 20)]).2 =
      [DbOp.opened 1 0 5, DbOp.update 1 10 5, DbOp.close 1 20 20 5] ∧
    (20 : ℤ) ≠ pyInt ((10 : ℚ) - 0) := by
  constructor
  · norm_num [runCycles, trackStep, procArb, lookupA, updateA, pyInt,
      List.filter, List.foldl, List.find?]
  · norm_num [pyInt]

/-- C1 (code bug): a feed-query error on one cycle is treated as zero
outcomes observed — `scan_arbs` returns the empty list on a query
exception and `run_arb_scan` then closes every open opportunity; when the
outcome reappears on the next cycle a fresh opportunity is opened with a
new first-seen time instead of the old one remaining open.  Shown at a
concrete state: id 1 open since time 0 with peak 5; the feed errors at
time 60 and the opportunity is closed; it reappears at time 120 and a
fresh row is opened. -/
theorem feed_error_closes_opportunity :
    run_arb_scan {} true [(1, ⟨0, 5⟩)] none 60 = ([], [DbOp.close 1 60 60 5]) ∧
    run_arb_scan {} true []
      (some [{ id := 1, price_pinnacle := some (21/10), lay_price := some 2,
               back_price := some (211/100), volume := some 1000,
               last_updated := .stamp 120 }]) 120 =
      ([(1, ⟨120, 1857/500⟩)], [DbOp.opened 1 120 (1857/500), DbOp.alert 1]) := by
  constructor
  · norm_num [run_arb_scan, scanArbsFeed, trackStep, procArb, lookupA, pyInt,
      List.filter, List.foldl]
  · norm_num [run_arb_scan, scanArbsFeed, scanArbs, rowArb, calc_margin,
      pyRound3, pyRound2, halfEvenRound, trackStep, procArb, lookupA, updateA, pyInt,
      List.insertionSort, List.orderedInsert, List.filterMap, List.filter, List.foldl,
      List.find?]

/-- Every event the verification loop emits is a poll call. -/
theorem verifyLoop_events (aoStake : ℚ) :
    ∀ polls : List PollR, ∀ e ∈ (verifyLoop aoStake polls).1,
      e = Event.call CallTag.aoVerifyPoll := by
  intro polls
  induction polls with
  | nil => intro e he; simp [verifyLoop] at he
  | cons p t ih =>
    intro e he
    cases p with
    | error =>
      simp only [verifyLoop, List.mem_cons] at he
      rcases he with rfl | he
      · rfl
      · exact ih e he
    | noBets =>
      simp only [verifyLoop, List.mem_cons] at he
      rcases he with rfl | he
      · rfl
      · exact ih e he
    | status s stake =>
      cases s with
      | confirmed => simp only [verifyLoop, List.mem_singleton] at he; exact he
      | accepted => simp only [verifyLoop, List.mem_singleton] at he; exact he
      | running => simp only [verifyLoop, List.mem_singleton] at he; exact he
      | rejected => simp only [verifyLoop, List.mem_singleton] at he; exact he
      | cancelled => simp only [verifyLoop, List.mem_singleton] at he; exact he
      | void => simp only [verifyLoop, List.mem_singleton] at he; exact he
      | other =>
        simp only [verifyLoop, List.mem_cons] at he
        rcases he with rfl | he
        · rfl
        · exact ih e he

/-- The loop events filter to nothing for any outcome. -/
theorem filter_isKeyFor_verifyLoop (o : Outcome) (aoStake : ℚ) (polls : List PollR) :
    List.filter (isKeyFor o) (verifyLoop aoStake polls).1 = [] := by
  rw [List.filter_eq_nil]
  intro e he
  rw [verifyLoop_events aoStake polls e he]
  simp [isKeyFor]

/-- Shared abort-epilogue case of the ordering theorem: when the prefix
filters to nothing for every outcome and the trace logs `o`, the key
events are the terminal message then the log row. -/
theorem keyEvents_abort_case (pre : List Event) (o o2 : Outcome)
    (hpre : ∀ o3, keyEvents o3 pre = [])
    (hne : o2 ≠ Outcome.executed)
    (h : Event.log o ∈ abortWith pre o2) :
    keyEvents o (abortWith pre o2) = orderedPair o := by
  have ho : o = o2 := by
    rcases List.mem_append.1 h with h1 | h1
    · have hk : Event.log o ∈ keyEvents o pre := by
        rw [keyEvents, List.mem_filter]
        exact ⟨h1, by simp [isKeyFor]⟩
      rw [hpre o] at hk
      simp at hk
    · simp only [List.mem_cons, List.not_mem_nil, or_false] at h1
      rcases h1 with h1 | h1
      · exact absurd h1 (by simp)
      · injection h1
  subst ho
  rw [abortWith, show keyEvents o (pre ++ [Event.notify (.outcomeMsg o), Event.log o]) =
    keyEvents o pre ++ keyEvents o [Event.notify (.outcomeMsg o), Event.log o] from
    by simp [keyEvents, List.filter_append], hpre o]
  have h2 : keyEvents o [Event.notify (.outcomeMsg o), Event.log o] =
      [Event.notify (.outcomeMsg o), Event.log o] := by
    simp [keyEvents, List.filter, isKeyFor]
  rw [h2, orderedPair, if_neg hne]
  simp

/-- Success-epilogue case of the ordering theorem: the log row precedes
the terminal message. -/
theorem keyEvents_success_case (pre : List Event) (o : Outcome)
    (hpre : ∀ o3, keyEvents o3 pre = [])
    (h : Event.log o ∈ pre ++ [Event.log .executed, Event.notify (.outcomeMsg .executed)]) :
    keyEvents o (pre ++ [Event.log .executed, Event.notify (.outcomeMsg .executed)]) =
      orderedPair o := by
  have ho : o = Outcome.executed := by
    rcases List.mem_append.1 h with h1 | h1
    · have hk : Event.log o ∈ keyEvents o pre := by
        rw [keyEvents, List.mem_filter]
        exact ⟨h1, by simp [isKeyFor]⟩
      rw [hpre o] at hk
      simp at hk
    · simp only [List.mem_cons, List.not_mem_nil, or_false] at h1
      rcases h1 with h1 | h1
      · injection h1
      · exact absurd h1 (by simp)
  subst ho
  rw [show keyEvents Outcome.executed
      (pre ++ [Event.log .executed, Event.notify (.outcomeMsg .executed)]) =
    keyEvents Outcome.executed pre ++
      keyEvents Outcome.executed [Event.log .executed, Event.notify (.outcomeMsg .executed)] from
    by simp [keyEvents, List.filter_append], hpre _]
  have h2 : keyEvents Outcome.executed [Event.log .executed, Event.notify (.outcomeMsg .executed)] =
      [Event.log .executed, Event.notify (.outcomeMsg .executed)] := by
    simp [keyEvents, List.filter, isKeyFor]
  rw [h2, orderedPair, if_pos rfl]
  simp

/-- The rejected-like log statuses are never the success status. -/
theorem rejOutcome_ne_executed (k : RejKind) : rejOutcome k ≠ Outcome.executed := by
  cases k <;> simp [rejOutcome]

/-- C2 amended: for every saga environment and terminal outcome, the
execution-log row and the terminal operator message for that outcome
appear exactly once each, ordered log-then-message only for the success
outcome and message-then-log for every other terminal outcome (dry run,
every abort and failure, and the ambiguous-exposure escalations). -/
theorem saga_log_notify_order (cfg : ExecCfg) (env : ExecEnv) (o : Outcome)
    (h : Event.log o ∈ sagaTrace cfg env) :
    keyEvents o (sagaTrace cfg env) = orderedPair o := by
  revert h
  simp only [sagaTrace]
  repeat' split
  all_goals intro h
  all_goals
    first
    | exact keyEvents_abort_case _ _ _
        (fun o3 => by
          simp [keyEvents, List.filter_append, List.filter_cons, List.filter_nil,
            isKeyFor, filter_isKeyFor_verifyLoop])
        (by first | exact rejOutcome_ne_executed _ | simp) h
    | exact keyEvents_success_case _ _
        (fun o3 => by
          simp [keyEvents, List.filter_append, List.filter_cons, List.filter_nil,
            isKeyFor, filter_isKeyFor_verifyLoop])
        h

/-- Witness for C2 amended: with execution disabled, the dry-run outcome
is logged and its key events are message-then-log. -/
theorem saga_log_notify_order_witness :
    keyEvents Outcome.dryRun (sagaTrace {} {}) = orderedPair Outcome.dryRun :=
  saga_log_notify_order {} {} Outcome.dryRun
    (by simp [sagaTrace, abortWith])

/-- Counterexample to C2 as stated: on the dry-run outcome the operator
message is sent before the execution-log row is written, so the log row
does not precede the notification. -/
theorem dryrun_notify_before_log :
    sagaTrace {} {} = [Event.notify (.outcomeMsg .dryRun), Event.log .dryRun] ∧
    keyEvents .dryRun (sagaTrace {} {}) ≠
      [Event.log .dryRun, Event.notify (.outcomeMsg .dryRun)] := by
  constructor
  · rfl
  · simp [sagaTrace, abortWith, keyEvents, List.filter, isKeyFor]

/-- C4: invoking `execute_arb` while the single execution lock is held
produces only the busy message — it does not run the saga, does not
queue, and performs zero venue calls. -/
theorem busy_no_venue_calls (cfg : ExecCfg) (env : ExecEnv) :
    execute_arb true cfg env = [Event.notify NoteTag.busy] ∧
    ∀ t, Event.call t ∉ execute_arb true cfg env := by
  refine ⟨rfl, ?_⟩
  intro t ht
  simp [execute_arb] at ht

/-- Counterexample to C8 as stated: when the clamped stake already equals
the back-venue minimum, the liquidity reduction is undone by the re-clamp
and the back bet is placed at the original size.  Target 5, venue min 5,
back 2.10, lay 2.00, commission 0.02, only 3 available to lay: the
required hedge 175/33 ≈ 5.30 exceeds 3, yet the bet is placed at 5. -/
theorem stake_reclamped_to_original :
    (adjustStake (1/50) 5 5 99999 (21/10) 2 3).1 = 5 ∧
    3 < exec_calc_lay_stake (1/50) 5 (21/10) 2 ∧
    Event.call (.aoPlaceBet 5) ∈ sagaTrace
      { execEnabled := true }
      { pin_back := 21/10, bf_lay := 2,
        bf := .book false true true [(2, 3)],
        aoClientAvailable := true,
        placement := .ok (21/10) 5 99999,
        place := .error, verify := [], bfPlace := none } := by
  refine ⟨?_, ?_, ?_⟩
  · norm_num [adjustStake, exec_calc_lay_stake, max_def, min_def]
  · norm_num [exec_calc_lay_stake]
  · norm_num [sagaTrace, exec_calc_margin, adjustStake, exec_calc_lay_stake,
      abortWith, max_def, min_def, List.mem_append]

/-- C8 amended: the back stake starts from the configured target clamped
to the back-venue min and max; when the required hedge stake exceeds the
available lay liquidity it is scaled by the liquidity ratio with a 5
percent buffer and re-clamped to the venue minimum; the result never
exceeds the clamped original, and is strictly below it whenever the
clamped original exceeds the venue minimum (when they are equal the
re-clamp can restore the original size). -/
theorem adjust_stake_spec (c t aoMin aoMax p_b p_l laySize : ℚ)
    (hb : 101/100 < p_b) (hl : 101/100 < p_l) (hc0 : 0 ≤ c) (hc1 : c < 1)
    (ht : 0 < t) (hmax : 0 < aoMax) (hminmax : aoMin ≤ aoMax) (hsize : 0 ≤ laySize)
    (hneed : laySize < exec_calc_lay_stake c (min (max t aoMin) aoMax) p_b p_l) :
    (adjustStake c t aoMin aoMax p_b p_l laySize).1 =
      max (min (max t aoMin) aoMax *
        (laySize / exec_calc_lay_stake c (min (max t aoMin) aoMax) p_b p_l) * (19/20)) aoMin ∧
    (adjustStake c t aoMin aoMax p_b p_l laySize).1 ≤ min (max t aoMin) aoMax ∧
    (aoMin < min (max t aoMin) aoMax →
      (adjustStake c t aoMin aoMax p_b p_l laySize).1 < min (max t aoMin) aoMax) := by
  have hbpos : (0:ℚ) < p_b := by linarith
  have hden : (0:ℚ) < p_l - c * (p_l - 1) := by nlinarith
  set s1 := min (max t aoMin) aoMax with hs1def
  have hs1 : 0 < s1 := lt_min (lt_of_lt_of_le ht (le_max_left t aoMin)) hmax
  have hneedpos : 0 < exec_calc_lay_stake c s1 p_b p_l := by
    unfold exec_calc_lay_stake
    exact div_pos (mul_pos hs1 hbpos) hden
  set need := exec_calc_lay_stake c s1 p_b p_l with hneeddef
  have hratio : laySize / need < 1 := (div_lt_one hneedpos).2 hneed
  have hratio0 : 0 ≤ laySize / need := div_nonneg hsize hneedpos.le
  have hs2 : s1 * (laySize / need) * (19/20) < s1 := by nlinarith
  have hminle : aoMin ≤ s1 := le_min (le_max_right t aoMin) hminmax
  have heq : (adjustStake c t aoMin aoMax p_b p_l laySize).1 =
      max (s1 * (laySize / need) * (19/20)) aoMin := by
    simp only [adjustStake, ← hs1def, ← hneeddef]
    rw [if_pos hneed]
  refine ⟨heq, ?_, ?_⟩
  · rw [heq]
    exact max_le hs2.le hminle
  · intro hlt
    rw [heq]
    exact max_lt hs2 hlt

/-- Witness for C8 amended: with venue minimum 0, target 5, back 2.10,
lay 2.00, commission 0.02 and only 3 available, the placed stake is
strictly below the clamped original. -/
theorem adjust_stake_spec_witness :
    (adjustStake (1/50) 5 0 99999 (21/10) 2 3).1 < min (max 5 0) 99999 := by
  have h := adjust_stake_spec (1/50) 5 0 99999 (21/10) 2 3 (by norm_num) (by norm_num)
    (by norm_num) (by norm_num) (by norm_num) (by norm_num) (by norm_num) (by norm_num)
    (by norm_num [exec_calc_lay_stake, max_def, min_def])
  exact h.2.2 (by norm_num [max_def, min_def])
